import Mathlib

/-!
Shallow embedding of the `bbal` NBA auction-value calculator, and proofs of
the specified properties against it.

The repository carries its frontend sources (`App.tsx`, `PlayerTable.tsx`,
`StatCell.tsx`, `ZScoreCell.tsx`, `Player.ts`) together with documentation of
the backend valuation pipeline (`backend/calculator.py`, `backend/main.py`),
whose source files themselves are not present.  Definitions for the frontend
are translated from the TypeScript sources; definitions for the backend
valuation pipeline are modelled from the specification, as marked in their
doc comments.

Layout: all definitions first, then the theorems.
-/

namespace Bbal

/-! ## Definitions: rounding -/

/-- Round a rational to the nearest integer (half rounds up); models the
`round` applied by the pipeline to continuous dollar amounts. -/
def qround (x : ℚ) : ℤ := ⌊x + 1 / 2⌋

/-! ## Definitions: categories and standardized scores

Modelled from the spec: `backend/calculator.py`'s z-score engine is not under
the sources; the category set, the standardization formula, the turnover sign
inversion and the weighted total follow §3 and §4.2 of the specification.
The population standard deviation of a pool is an (irrational, in general)
square root, so theorems take the standard deviation as a parameter
constrained by `std ^ 2 = variance` and `0 ≤ std`. -/

/-- Modelled from the spec: the fixed ordered set of nine categories. -/
inductive Cat where
  | points | rebounds | assists | steals | blocks
  | threes | fgPct | ftPct | turnovers
deriving DecidableEq, Repr, Fintype

/-- The nine categories in their fixed order. -/
def allCats : List Cat :=
  [.points, .rebounds, .assists, .steals, .blocks, .threes, .fgPct, .ftPct, .turnovers]

/-- Modelled from the spec: the lower-is-better tag; turnovers is the only
negative category. -/
def isNegative : Cat → Bool
  | .turnovers => true
  | _ => false

/-- Arithmetic mean of a pool of per-category values. -/
def poolMean (l : List ℚ) : ℚ := l.sum / l.length

/-- Population variance of a pool of per-category values (the square of the
population standard deviation used by the z-score engine). -/
def poolVariance (l : List ℚ) : ℚ :=
  (l.map fun x => (x - poolMean l) ^ 2).sum / l.length

/-- Modelled from the spec: standardized score
`(value - mean) / std` when `std > 0`, else `0`. -/
def standardize (mean std value : ℚ) : ℚ :=
  if 0 < std then (value - mean) / std else 0

/-- Modelled from the spec: a category's weighted contribution,
`standardized * weight`, with the standardized score's sign inverted first
for a negative category. -/
def weightedContribution (neg : Bool) (mean std value weight : ℚ) : ℚ :=
  (if neg then -standardize mean std value else standardize mean std value) * weight

/-- The values a pool of players posts in one category. -/
def catValues (pool : List (Cat → ℚ)) (c : Cat) : List ℚ := pool.map fun p => p c

/-- Modelled from the spec: a player's total score — the sum over the nine
categories of the weighted contributions, computed against the eligible
pool's per-category means and standard deviations. -/
def totalScore (pool : List (Cat → ℚ)) (stds weights : Cat → ℚ) (p : Cat → ℚ) : ℚ :=
  (allCats.map fun c =>
    weightedContribution (isNegative c) (poolMean (catValues pool c)) (stds c) (p c)
      (weights c)).sum

/-! ## Definitions: replacement level and dollar conversion

Modelled from the spec: `backend/calculator.py`'s replacement-level estimator
and dollar converter are not under the sources; the definitions follow §4.3
and §4.4 of the specification (matching the README's VAR pseudocode).
They operate on the eligible pool's total scores sorted descending. -/

/-- Modelled from the spec: the replacement level — the total score at
one-based position `d` (the last draftable player) of the descending-sorted
pool, or the lowest available score if the pool is smaller. -/
def replacementLevel (sorted : List ℚ) (d : ℕ) : ℚ :=
  (sorted[d - 1]?).getD ((sorted.getLast?).getD 0)

/-- Modelled from the spec: `sum(max(VAR_i, 0))` over the draftable pool
(the first `d` players of the descending-sorted pool). -/
def posVarSum (sorted : List ℚ) (d : ℕ) : ℚ :=
  ((sorted.take d).map fun s => max (s - replacementLevel sorted d) 0).sum

/-- Modelled from the spec: the `dollars_per_VAR` factor, chosen so that
`sum(max(VAR_i, 0) * dollars_per_VAR) + d * $1` equals the total budget
`league_teams * budget` (0 when the pool has no positive VAR to scale). -/
def dollarsPerVAR (sorted : List ℚ) (d : ℕ) (totalBudget : ℚ) : ℚ :=
  if 0 < posVarSum sorted d then (totalBudget - d) / posVarSum sorted d else 0

/-- Modelled from the spec: a player's statistical dollar value,
`max(1, round(1 + VAR * dollars_per_VAR))`. -/
def statDollarValue (sorted : List ℚ) (d : ℕ) (totalBudget : ℚ) (score : ℚ) : ℤ :=
  max 1 (qround (1 + (score - replacementLevel sorted d) * dollarsPerVAR sorted d totalBudget))

/-! ## Definitions: blending and inflation

Modelled from the spec: `backend/calculator.py::_blend_values` is not under
the sources; the confidence-tier table, the blend formula and the inflation
adjustment follow §4.6 of the specification (which matches the pseudocode in
the repository README). -/

/-- Modelled from the spec: the confidence weight chosen by ADP-rank tier in
`_blend_values` (rank ≤ 20 → 0.7, ≤ 50 → 0.6, ≤ 100 → 0.5, else 0.3). -/
def blendWeight (rank : ℕ) : ℚ :=
  if rank ≤ 20 then 7 / 10
  else if rank ≤ 50 then 6 / 10
  else if rank ≤ 100 then 5 / 10
  else 3 / 10

/-- Modelled from the spec: the blended dollar value of `_blend_values`.
A player with an ADP rank gets `w * adp + (1 - w) * stat`; a player with no
ADP record keeps the statistical value. -/
def blendedValue (adpRank : Option ℕ) (adpDollar statDollar : ℚ) : ℚ :=
  match adpRank with
  | some r => blendWeight r * adpDollar + (1 - blendWeight r) * statDollar
  | none => statDollar

/-- Modelled from the spec: the inflation adjustment applied uniformly after
blending, `blended * (1 + inflation_rate / 100)`. -/
def inflate (rate blended : ℚ) : ℚ := blended * (1 + rate / 100)

/-- Modelled from the spec: the final dollar value,
`round(blended * (1 + inflation_rate / 100))` floored at $1. -/
def finalDollar (rate blended : ℚ) : ℤ := max 1 (qround (inflate rate blended))

/-! ## Definitions: configuration validation and fatal errors

Modelled from the spec: `backend/main.py` and the orchestration in
`backend/calculator.py` are not under the sources; the league configuration,
the error taxonomy, the games-played filter and the fatal-error behaviour
follow §3, §4.1 and §7 of the specification.  The pipeline's downstream
valuation is represented by the eligible pool it feeds, since the claim
settled against it concerns only error behaviour and atomicity. -/

/-- Modelled from the spec: the immutable per-run league configuration. -/
structure LeagueConfig where
  season : String
  minGames : ℕ
  weights : Cat → ℚ
  inflationRate : ℚ
  leagueTeams : ℤ
  rosterSize : ℤ
  budget : ℤ

/-- Modelled from the spec: a raw player record — identity, games played and
the per-category stat values. -/
structure RawPlayer where
  name : String
  team : String
  position : String
  games : ℕ
  stats : Cat → ℚ

/-- Modelled from the spec: the fatal-error taxonomy, each carrying a
descriptive reason. -/
inductive PipelineError where
  | insufficientData : String → PipelineError
  | invalidConfig : String → PipelineError
deriving DecidableEq, Repr

/-- Modelled from the spec: configuration validity — every category weight in
`[0, 2]`, positive `league_teams`, `roster_size` and `budget`, nonnegative
`inflation_rate`. -/
def validConfigB (cfg : LeagueConfig) : Bool :=
  allCats.all (fun c => decide (0 ≤ cfg.weights c) && decide (cfg.weights c ≤ 2)) &&
    decide (0 < cfg.leagueTeams) && decide (0 < cfg.rosterSize) &&
    decide (0 < cfg.budget) && decide (0 ≤ cfg.inflationRate)

/-- Modelled from the spec: the eligibility filter — the subsequence of
records with `games ≥ min_games`. -/
def eligibleFilter (minGames : ℕ) (pool : List RawPlayer) : List RawPlayer :=
  pool.filter fun p => decide (minGames ≤ p.games)

/-- Modelled from the spec: the pipeline's fatal-error skeleton.  An invalid
configuration aborts with `InvalidConfig`; an empty eligible pool aborts with
`InsufficientData`; otherwise the eligible pool flows on.  An aborted run
carries no output at all. -/
def runPipeline (cfg : LeagueConfig) (pool : List RawPlayer) :
    Except PipelineError (List RawPlayer) :=
  if validConfigB cfg then
    let elig := eligibleFilter cfg.minGames pool
    if elig.isEmpty then
      .error (.insufficientData "eligible pool empty after games-played filter")
    else
      .ok elig
  else
    .error (.invalidConfig
      "category weight outside [0,2], non-positive league parameter, or negative inflation rate")

/-! ## Definitions: the frontend's JavaScript array sort

`App.tsx` and `PlayerTable.tsx` call `Array.prototype.sort` with bespoke
comparators.  The engines' sorts are stable merge sorts; we embed the sort
as a stable top-down merge sort over the Boolean relation
"comparator result ≤ 0 keeps `a` before `b`". -/

/-- Stable merge of two lists: the left element goes first whenever the
comparator keeps it (models the merge step of the engine's stable sort). -/
def jsMerge {α : Type} (r : α → α → Bool) : List α → List α → List α
  | [], ys => ys
  | xs, [] => xs
  | x :: xs, y :: ys =>
    if r x y then x :: jsMerge r xs (y :: ys) else y :: jsMerge r (x :: xs) ys

/-- Stable top-down merge sort over a Boolean "keep left" relation; models
`Array.prototype.sort(comparator)` with `r a b = (comparator a b ≤ 0)`. -/
def jsSort {α : Type} (r : α → α → Bool) (l : List α) : List α :=
  if h : l.length ≤ 1 then l
  else
    jsMerge r (jsSort r (l.take (l.length / 2))) (jsSort r (l.drop (l.length / 2)))
termination_by l.length
decreasing_by
  · simp only [List.length_take]
    omega
  · simp only [List.length_drop]
    omega

/-! ## Definitions: the player table's sort comparator (PlayerTable.tsx)

The table's `filteredAndSortedPlayers` sorts the filtered rows with a
comparator over the selected sort key's value: a row whose key value is null
or undefined compares as 1 (after everything), a row compared against such a
row compares as -1, and two numeric values compare by their signed
difference, oriented by the sort direction.  `keyVal` models the dynamic
`a[sortKey]` access for a numeric sort key, with `none` for null/undefined. -/

/-- The comparator of `filteredAndSortedPlayers` (`PlayerTable.tsx`,
lines 64-78): `asc = true` models `sortDirection === 'asc'`. -/
def sortCompare {α : Type} (keyVal : α → Option ℚ) (asc : Bool) (a b : α) : ℚ :=
  match keyVal a, keyVal b with
  | none, _ => 1
  | some _, none => -1
  | some av, some bv => if asc then av - bv else bv - av

/-- The sorted view of the player table: the engine's stable sort run with
`sortCompare`. -/
def sortedView {α : Type} (keyVal : α → Option ℚ) (asc : Bool) (l : List α) : List α :=
  jsSort (fun a b => decide (sortCompare keyVal asc a b ≤ 0)) l

/-! ## Definitions: the draft-tracking state (App.tsx) -/

/-- A player row as the draft logic of `App.tsx` uses it: the identity key
(`name`) and the optional `auction_value`. -/
structure UIPlayer where
  name : String
  auction_value : Option ℚ
deriving DecidableEq, Repr

/-- A drafted player (`DraftedPlayer` in `App.tsx`): the player plus the
optional `actualPrice` recorded when drafting to my team. -/
structure DraftedPlayer where
  player : UIPlayer
  actualPrice : Option ℚ
deriving DecidableEq, Repr

/-- JavaScript `actualPrice || player.auction_value`: an absent or zero
(falsy) actual price falls back to the auction value. -/
def jsOrPrice (price fallback : Option ℚ) : Option ℚ :=
  match price with
  | some v => if v = 0 then fallback else some v
  | none => fallback

/-- The available-list comparator of `App.tsx`,
`(b.auction_value || 0) - (a.auction_value || 0)`, as the Boolean
"keep left" relation of the stable sort. -/
def byValueDesc (a b : UIPlayer) : Bool :=
  decide (b.auction_value.getD 0 - a.auction_value.getD 0 ≤ 0)

/-- The draft-tracking state of `App.tsx`: the available list and the two
drafted lists. -/
structure DraftState where
  available : List UIPlayer
  myTeam : List DraftedPlayer
  othersDrafted : List DraftedPlayer

/-- The five UI draft operations of `App.tsx` as a step relation.  Each
operation is invoked from a row of the list it acts on, so the stepped
player is a member of that list. -/
inductive DraftStep : DraftState → DraftState → Prop where
  | draftToMyTeam (s : DraftState) (p : UIPlayer) (price : Option ℚ)
      (hp : p ∈ s.available) :
      DraftStep s ⟨s.available.filter fun q => decide (q.name ≠ p.name),
        s.myTeam ++ [⟨p, jsOrPrice price p.auction_value⟩], s.othersDrafted⟩
  | draftToOthers (s : DraftState) (p : UIPlayer) (hp : p ∈ s.available) :
      DraftStep s ⟨s.available.filter fun q => decide (q.name ≠ p.name),
        s.myTeam, s.othersDrafted ++ [⟨p, none⟩]⟩
  | undraftFromMyTeam (s : DraftState) (d : DraftedPlayer) (hd : d ∈ s.myTeam) :
      DraftStep s ⟨jsSort byValueDesc (s.available ++ [d.player]),
        s.myTeam.filter fun q => decide (q.player.name ≠ d.player.name),
        s.othersDrafted⟩
  | undraftFromOthers (s : DraftState) (d : DraftedPlayer) (hd : d ∈ s.othersDrafted) :
      DraftStep s ⟨jsSort byValueDesc (s.available ++ [d.player]),
        s.myTeam,
        s.othersDrafted.filter fun q => decide (q.player.name ≠ d.player.name)⟩
  | clearAll (s : DraftState) :
      DraftStep s ⟨jsSort byValueDesc
        (s.available ++ s.myTeam.map DraftedPlayer.player ++
          s.othersDrafted.map DraftedPlayer.player), [], []⟩

/-- The multiset union of the three draft lists, as the list concatenation
of the available players and the player projections of the drafted lists. -/
def uiUnion (s : DraftState) : List UIPlayer :=
  s.available ++ s.myTeam.map DraftedPlayer.player ++
    s.othersDrafted.map DraftedPlayer.player

end Bbal

namespace Bbal

open List

/-! ## Theorems: rounding -/

theorem qround_sub_le (x : ℚ) : |(qround x : ℚ) - x| ≤ 1 / 2 := by
  rw [abs_le]
  unfold qround
  constructor
  · have h := Int.sub_one_lt_floor (x + 1 / 2)
    push_cast at h ⊢
    linarith
  · have h := Int.floor_le (x + 1 / 2)
    push_cast at h ⊢
    linarith

theorem one_le_qround {x : ℚ} (hx : 1 ≤ x) : 1 ≤ qround x := by
  unfold qround
  exact_mod_cast Int.le_floor.mpr (by push_cast; linarith)

theorem qround_le_one {x : ℚ} (hx : x ≤ 1) : qround x ≤ 1 := by
  unfold qround
  have h : ⌊x + 1 / 2⌋ < (2 : ℤ) := Int.floor_lt.mpr (by push_cast; linarith)
  omega

/-! ## Theorems: standardized scores (C3) -/

theorem variance_pos_of_mem_lt {l : List ℚ} {v : ℚ} (hv : v ∈ l)
    (hlt : v < poolMean l) : 0 < poolVariance l := by
  have hlen : 0 < (l.length : ℚ) := by
    have hne : l ≠ [] := by rintro rfl; simp at hv
    exact_mod_cast Nat.pos_of_ne_zero (by simpa [List.length_eq_zero] using hne)
  have hterm : (v - poolMean l) ^ 2 ∈ l.map fun x => (x - poolMean l) ^ 2 :=
    List.mem_map_of_mem _ hv
  have hnonneg : ∀ x ∈ l.map fun x => (x - poolMean l) ^ 2, 0 ≤ x := by
    rintro x hx
    obtain ⟨y, -, rfl⟩ := List.mem_map.mp hx
    positivity
  have hsum : (v - poolMean l) ^ 2 ≤ (l.map fun x => (x - poolMean l) ^ 2).sum :=
    List.single_le_sum hnonneg _ hterm
  have hpos : 0 < (v - poolMean l) ^ 2 := by
    have : v - poolMean l ≠ 0 := by linarith
    positivity
  rw [poolVariance]
  exact div_pos (lt_of_lt_of_le hpos hsum) hlen

/-- C3: Turnover sign inversion.  Take an eligible pool's turnover values,
any standard deviation `s` with `s ^ 2` the pool variance and `s ≥ 0`, and a
player in the pool with fewer turnovers than the pool mean.  If the turnover
weight is positive, the player's weighted turnover contribution is positive
(the standardized score's sign is inverted before the weight is applied). -/
theorem turnover_inversion_positive (l : List ℚ) (v s w : ℚ)
    (hv : v ∈ l) (hlt : v < poolMean l)
    (hs : s ^ 2 = poolVariance l) (hs0 : 0 ≤ s) (hw : 0 < w) :
    0 < weightedContribution (isNegative .turnovers) (poolMean l) s v w := by
  have hvar : 0 < poolVariance l := variance_pos_of_mem_lt hv hlt
  have hspos : 0 < s := by
    rcases hs0.lt_or_eq with h | h
    · exact h
    · exfalso; rw [← h] at hs; simp at hs; rw [← hs] at hvar; simp at hvar
  have hz : standardize (poolMean l) s v < 0 := by
    rw [standardize, if_pos hspos]
    exact div_neg_of_neg_of_pos (by linarith) hspos
  have hneg : isNegative .turnovers = true := rfl
  rw [weightedContribution, hneg, if_pos rfl]
  exact mul_pos (by linarith) hw

/-- Witness for C3: pool `[0, 2]`, player with 0 turnovers, std 1, weight 1:
the weighted turnover contribution is positive. -/
theorem turnover_inversion_positive_witness :
    0 < weightedContribution (isNegative .turnovers) (poolMean [0, 2]) 1 0 1 :=
  turnover_inversion_positive [0, 2] 0 1 1 (by decide)
    (by rw [poolMean]; norm_num)
    (by rw [poolVariance, poolMean]; norm_num) (by norm_num) (by norm_num)

/-! ## Theorems: zero-weight noninterference (C4) -/

theorem eq_of_sq_eq_of_nonneg {a b : ℚ} (ha : 0 ≤ a) (hb : 0 ≤ b)
    (h : a ^ 2 = b ^ 2) : a = b := by
  have h2 : (a - b) * (a + b) = 0 := by linear_combination h
  rcases mul_eq_zero.mp h2 with h3 | h3
  · linarith
  · have ha0 : a = 0 := by linarith
    have hb0 : b = 0 := by linarith
    rw [ha0, hb0]

theorem catValues_set_of_eq (pool : List (Cat → ℚ)) (i : ℕ) (p₀ : Cat → ℚ)
    (hp : pool[i]? = some p₀) (p' : Cat → ℚ) (d : Cat) (h : p' d = p₀ d) :
    catValues (pool.set i p') d = catValues pool d := by
  obtain ⟨hilen, hget⟩ := List.getElem?_eq_some.mp hp
  apply List.ext_getElem (by simp [catValues])
  intro j hj hj'
  simp only [catValues, List.getElem_map, List.getElem_set]
  by_cases hij : i = j
  · subst hij
    rw [if_pos rfl, h, hget]
  · rw [if_neg hij]

/-- C4: Zero-weight noninterference.  Fix a category `c` whose weight is 0.
Change one pool member's raw value in `c` (which re-derives the pool's
category-`c` mean and standard deviation) and evaluate any player whose
values agree with the original off `c`: the total weighted score is
unchanged.  In particular two players identical except in `c` receive
identical total scores. -/
theorem zero_weight_noninterference (pool : List (Cat → ℚ)) (i : ℕ)
    (p₀ : Cat → ℚ) (c : Cat) (x : ℚ) (weights stds stds' q q' : Cat → ℚ)
    (hp : pool[i]? = some p₀)
    (hw : weights c = 0)
    (hstd : ∀ d, stds d ^ 2 = poolVariance (catValues pool d) ∧ 0 ≤ stds d)
    (hstd' : ∀ d, stds' d ^ 2 =
      poolVariance (catValues (pool.set i (Function.update p₀ c x)) d) ∧ 0 ≤ stds' d)
    (hq : ∀ d, d ≠ c → q' d = q d) :
    totalScore (pool.set i (Function.update p₀ c x)) stds' weights q' =
      totalScore pool stds weights q := by
  have hcv : ∀ d, d ≠ c →
      catValues (pool.set i (Function.update p₀ c x)) d = catValues pool d := by
    intro d hd
    exact catValues_set_of_eq pool i p₀ hp _ d (Function.update_noteq hd x p₀)
  have hstdeq : ∀ d, d ≠ c → stds' d = stds d := by
    intro d hd
    refine eq_of_sq_eq_of_nonneg (hstd' d).2 (hstd d).2 ?_
    rw [(hstd' d).1, (hstd d).1, hcv d hd]
  unfold totalScore
  refine congrArg List.sum (List.map_congr_left ?_)
  intro d _
  by_cases hd : d = c
  · subst hd
    rw [weightedContribution, weightedContribution, hw, mul_zero, mul_zero]
  · rw [hcv d hd, hstdeq d hd, hq d hd]

/-- Witness for C4: a two-player pool; player 0's rebounds are changed from
0 to 5 under rebound weight 0, and the changed player's total score equals
the original player's total score. -/
theorem zero_weight_noninterference_witness :
    totalScore
        ([fun d => if d = Cat.points then 0 else 0,
          fun d => if d = Cat.points then 2 else 0].set 0
          (Function.update (fun d => if d = Cat.points then 0 else 0) Cat.rebounds 5))
        (fun d => if d = Cat.points then 1 else if d = Cat.rebounds then 5 / 2 else 0)
        (fun d => if d = Cat.rebounds then 0 else 1)
        (Function.update (fun d => if d = Cat.points then 0 else 0) Cat.rebounds 5) =
      totalScore
        [fun d => if d = Cat.points then 0 else 0,
          fun d => if d = Cat.points then 2 else 0]
        (fun d => if d = Cat.points then 1 else 0)
        (fun d => if d = Cat.rebounds then 0 else 1)
        (fun d => if d = Cat.points then 0 else 0) :=
  zero_weight_noninterference
    [fun d => if d = Cat.points then 0 else 0, fun d => if d = Cat.points then 2 else 0]
    0 (fun d => if d = Cat.points then 0 else 0) Cat.rebounds 5
    (fun d => if d = Cat.rebounds then 0 else 1)
    (fun d => if d = Cat.points then 1 else 0)
    (fun d => if d = Cat.points then 1 else if d = Cat.rebounds then 5 / 2 else 0)
    (fun d => if d = Cat.points then 0 else 0)
    (Function.update (fun d => if d = Cat.points then 0 else 0) Cat.rebounds 5)
    rfl
    (by norm_num)
    (by intro d; cases d <;> simp [poolVariance, poolMean, catValues] <;> norm_num)
    (by intro d
        cases d <;>
          simp [poolVariance, poolMean, catValues, Function.update] <;> norm_num)
    (fun d hd => Function.update_noteq hd 5 _)

/-! ## Theorems: blending and inflation (C2, C6, C7) -/

/-- C2: Blend confidence tiers.  For a player having an ADP rank the
confidence weight is 0.7 when rank ≤ 20, 0.6 when 20 < rank ≤ 50, 0.5 when
50 < rank ≤ 100, and 0.3 otherwise, and the blended value is
`w * adp + (1 - w) * stat`; a player with no ADP record keeps the
statistical dollar value unmodified, the `w = 0` instance of the formula. -/
theorem blend_confidence_tiers (r : ℕ) (a s : ℚ) :
    (r ≤ 20 → blendWeight r = 7 / 10) ∧
    (20 < r → r ≤ 50 → blendWeight r = 6 / 10) ∧
    (50 < r → r ≤ 100 → blendWeight r = 5 / 10) ∧
    (100 < r → blendWeight r = 3 / 10) ∧
    blendedValue (some r) a s = blendWeight r * a + (1 - blendWeight r) * s ∧
    blendedValue none a s = 0 * a + (1 - 0) * s := by
  unfold blendedValue blendWeight
  refine ⟨?_, ?_, ?_, ?_, rfl, by ring⟩
  · intro h; simp [h]
  · intro h1 h2; rw [if_neg (by omega), if_pos h2]
  · intro h1 h2; rw [if_neg (by omega), if_neg (by omega), if_pos h2]
  · intro h; rw [if_neg (by omega), if_neg (by omega), if_neg (by omega)]

/-- Witness for C2: the tiers evaluated at ranks 10, 30, 60 and 150. -/
theorem blend_confidence_tiers_witness :
    blendWeight 10 = 7 / 10 ∧ blendWeight 30 = 6 / 10 ∧
    blendWeight 60 = 5 / 10 ∧ blendWeight 150 = 3 / 10 ∧
    blendedValue (some 10) 40 20 = blendWeight 10 * 40 + (1 - blendWeight 10) * 20 ∧
    blendedValue none 40 20 = 0 * 40 + (1 - 0) * 20 :=
  ⟨(blend_confidence_tiers 10 0 0).1 (by norm_num),
   (blend_confidence_tiers 30 0 0).2.1 (by norm_num) (by norm_num),
   (blend_confidence_tiers 60 0 0).2.2.1 (by norm_num) (by norm_num),
   (blend_confidence_tiers 150 0 0).2.2.2.1 (by norm_num),
   (blend_confidence_tiers 10 40 20).2.2.2.2.1,
   (blend_confidence_tiers 10 40 20).2.2.2.2.2⟩

/-- C6: Inflation scaling.  For every inflation rate `r ≥ 0` the final value
is `round(blended * (1 + r/100))` floored at $1, and the pre-floor,
pre-round quantity at rate `r` is exactly `(1 + r/100)` times the
corresponding quantity of a run with rate 0 on the same blended input. -/
theorem inflation_scaling (r b : ℚ) (_hr : 0 ≤ r) :
    inflate r b = (1 + r / 100) * inflate 0 b ∧
    finalDollar r b = max 1 (qround ((1 + r / 100) * inflate 0 b)) := by
  have h : inflate r b = (1 + r / 100) * inflate 0 b := by
    unfold inflate; ring
  exact ⟨h, by rw [finalDollar, h]⟩

/-- Witness for C6: rate 20% on a blended value of 30. -/
theorem inflation_scaling_witness :
    inflate 20 30 = (1 + 20 / 100) * inflate 0 30 ∧
    finalDollar 20 30 = max 1 (qround ((1 + 20 / 100) * inflate 0 30)) :=
  inflation_scaling 20 30 (by norm_num)

/-- C7 counterexample: the claim says a player with `adp_rank = 75` has
confidence weight 0.3, but the tier table gives weight 0.5 for every rank in
(50, 100]. -/
theorem blend_tier_75_not_three_tenths :
    blendWeight 75 = 5 / 10 ∧ ¬ blendWeight 75 = 3 / 10 := by
  constructor
  · rw [blendWeight, if_neg (by omega), if_neg (by omega), if_pos (by omega)]
  · rw [blendWeight, if_neg (by omega), if_neg (by omega), if_pos (by omega)]
    norm_num

/-- C7 (amended): for a player with `adp_rank = 10` the final value equals
`round((0.7 * adp_value + 0.3 * stat_value) * (1 + r/100))` floored at $1,
and for a player with `adp_rank = 75` the confidence weight is 0.5. -/
theorem blend_tier_instances (a s r : ℚ) :
    finalDollar r (blendedValue (some 10) a s) =
      max 1 (qround ((7 / 10 * a + 3 / 10 * s) * (1 + r / 100))) ∧
    blendWeight 75 = 5 / 10 := by
  constructor
  · have h : blendedValue (some 10) a s = 7 / 10 * a + 3 / 10 * s := by
      rw [blendedValue, blendWeight, if_pos (by omega)]
      ring
    rw [finalDollar, inflate, h]
  · rw [blendWeight, if_neg (by omega), if_neg (by omega), if_pos (by omega)]

/-! ## Theorems: list-sum helpers -/

theorem sum_map_add_const {α : Type} (l : List α) (f : α → ℚ) (c : ℚ) :
    (l.map fun x => c + f x).sum = l.length * c + (l.map f).sum := by
  induction l with
  | nil => simp
  | cons a t ih => simp [ih]; ring

theorem sum_map_mul_right {α : Type} (l : List α) (f : α → ℚ) (c : ℚ) :
    (l.map fun x => f x * c).sum = (l.map f).sum * c := by
  induction l with
  | nil => simp
  | cons a t ih => simp [ih]; ring

theorem sum_map_sub {α : Type} (l : List α) (f g : α → ℚ) :
    (l.map fun x => f x - g x).sum = (l.map f).sum - (l.map g).sum := by
  induction l with
  | nil => simp
  | cons a t ih => simp [ih]; ring

theorem abs_sum_map_le {α : Type} (l : List α) (f : α → ℚ) :
    |(l.map f).sum| ≤ (l.map fun x => |f x|).sum := by
  induction l with
  | nil => simp
  | cons a t ih =>
    simp only [List.map_cons, List.sum_cons]
    calc |f a + (t.map f).sum| ≤ |f a| + |(t.map f).sum| := abs_add _ _
      _ ≤ |f a| + (t.map fun x => |f x|).sum := by linarith

theorem sum_map_le_length_mul {α : Type} (l : List α) (f : α → ℚ) (b : ℚ)
    (h : ∀ x ∈ l, f x ≤ b) : (l.map f).sum ≤ l.length * b := by
  induction l with
  | nil => simp
  | cons a t ih =>
    simp only [List.map_cons, List.sum_cons, List.length_cons]
    have h1 := h a (by simp)
    have h2 := ih fun x hx => h x (by simp [hx])
    push_cast
    linarith

theorem sum_map_one {α : Type} (l : List α) :
    (l.map fun _ => (1 : ℚ)).sum = l.length := by
  induction l with
  | nil => simp
  | cons a t ih => simp [ih]; ring

/-! ## Theorems: replacement level and dollar conversion (C1, C5) -/

theorem replacementLevel_eq_get (sorted : List ℚ) (d : ℕ) (hd1 : 1 ≤ d)
    (hdlen : d ≤ sorted.length) :
    replacementLevel sorted d = sorted.get ⟨d - 1, by omega⟩ := by
  rw [replacementLevel, List.getElem?_eq_getElem (by omega : d - 1 < sorted.length)]
  simp

theorem repl_le_of_mem_take (sorted : List ℚ) (d : ℕ)
    (hsort : List.Sorted (· ≥ ·) sorted) (hd1 : 1 ≤ d) (hdlen : d ≤ sorted.length) :
    ∀ s ∈ sorted.take d, replacementLevel sorted d ≤ s := by
  intro s hs
  obtain ⟨i, hgi⟩ := List.mem_iff_get.mp hs
  have hi : (i : ℕ) < d := by
    have := i.isLt
    simp only [List.length_take] at this
    omega
  have hilen : (i : ℕ) < sorted.length := by omega
  have hval : s = sorted.get ⟨i, hilen⟩ := by
    rw [← hgi, List.get_eq_getElem, List.get_eq_getElem, List.getElem_take]
  rw [hval, replacementLevel_eq_get sorted d hd1 hdlen]
  have hle : (i : ℕ) ≤ d - 1 := by omega
  rcases hle.lt_or_eq with h | h
  · exact List.pairwise_iff_get.mp hsort ⟨i, hilen⟩ ⟨d - 1, by omega⟩ h
  · have : (⟨i, hilen⟩ : Fin sorted.length) = ⟨d - 1, by omega⟩ := Fin.ext h
    rw [this]

theorem get_le_repl_of_outside (sorted : List ℚ) (d : ℕ)
    (hsort : List.Sorted (· ≥ ·) sorted) (hd1 : 1 ≤ d) (hdlen : d ≤ sorted.length)
    (i : ℕ) (hi : i < sorted.length) (hout : d ≤ i) :
    sorted.get ⟨i, hi⟩ ≤ replacementLevel sorted d := by
  rw [replacementLevel_eq_get sorted d hd1 hdlen]
  exact List.pairwise_iff_get.mp hsort ⟨d - 1, by omega⟩ ⟨i, hi⟩ (by simp; omega)

theorem dollarsPerVAR_nonneg (sorted : List ℚ) (d : ℕ) (TB : ℚ)
    (hTB : (d : ℚ) ≤ TB) : 0 ≤ dollarsPerVAR sorted d TB := by
  unfold dollarsPerVAR
  by_cases h : 0 < posVarSum sorted d
  · rw [if_pos h]
    exact div_nonneg (by linarith) h.le
  · rw [if_neg h]

/-- C1: Budget conservation.  For a draftable count `teams * roster` and a
total budget `teams * budget` from a valid configuration (all three
parameters ≥ 1), and an eligible pool of total scores sorted descending and
at least draftable-count large, with some positive spread above replacement:
the `dollars_per_VAR` factor satisfies
`sum(max(VAR_i, 0) * dollars_per_VAR) + draftable_count * $1 = teams * budget`
over the draftable pool, and consequently the sum of the statistical dollar
values of the top `teams * roster` players differs from `teams * budget` by
at most `$draftable_count` of rounding drift. -/
theorem budget_conservation (teams roster budgt : ℕ) (sorted : List ℚ)
    (hteams : 1 ≤ teams) (hroster : 1 ≤ roster) (hbudgt : 1 ≤ budgt)
    (hsort : List.Sorted (· ≥ ·) sorted)
    (hdlen : teams * roster ≤ sorted.length)
    (hpos : 0 < posVarSum sorted (teams * roster)) :
    ((sorted.take (teams * roster)).map fun s =>
        max (s - replacementLevel sorted (teams * roster)) 0 *
          dollarsPerVAR sorted (teams * roster) ((teams * budgt : ℕ) : ℚ)).sum +
      ((teams * roster : ℕ) : ℚ) * 1 = ((teams * budgt : ℕ) : ℚ) ∧
    |((sorted.take (teams * roster)).map fun s =>
        ((statDollarValue sorted (teams * roster) ((teams * budgt : ℕ) : ℚ) s : ℤ) : ℚ)).sum -
      ((teams * budgt : ℕ) : ℚ)| ≤ ((teams * roster : ℕ) : ℚ) := by
  have hd1 : 1 ≤ teams * roster := Nat.mul_pos hteams hroster
  set d := teams * roster with hdDef
  set TB : ℚ := ((teams * budgt : ℕ) : ℚ) with hTBDef
  have hTBpos : 0 < TB := by
    rw [hTBDef]
    exact_mod_cast Nat.mul_pos hteams hbudgt
  set repl := replacementLevel sorted d with hreplDef
  set dpv := dollarsPerVAR sorted d TB with hdpvDef
  set pre := sorted.take d with hpreDef
  have hprelen : pre.length = d := by
    rw [hpreDef, List.length_take]
    omega
  have hge : ∀ s ∈ pre, repl ≤ s :=
    repl_le_of_mem_take sorted d hsort hd1 hdlen
  have hsumEq : posVarSum sorted d = (pre.map fun s => s - repl).sum := by
    unfold posVarSum
    exact congrArg List.sum (List.map_congr_left fun s hs =>
      max_eq_left (sub_nonneg.mpr (hge s hs)))
  have hconsA :
      (pre.map fun s => max (s - repl) 0 * dpv).sum + (d : ℚ) * 1 = TB := by
    have h1 : (pre.map fun s => max (s - repl) 0 * dpv).sum =
        posVarSum sorted d * dpv := by
      rw [sum_map_mul_right]
      unfold posVarSum
      rfl
    rw [h1, hdpvDef]
    unfold dollarsPerVAR
    rw [if_pos hpos]
    field_simp
  refine ⟨hconsA, ?_⟩
  have hUsum : (pre.map fun s => 1 + (s - repl) * dpv).sum = TB := by
    rw [sum_map_add_const pre (fun s => (s - repl) * dpv) 1,
      sum_map_mul_right pre (fun s => s - repl) dpv, ← hsumEq, hprelen]
    have := hconsA
    rw [sum_map_mul_right pre (fun s => max (s - repl) 0) dpv] at this
    have h2 : (pre.map fun s => max (s - repl) 0).sum = posVarSum sorted d := rfl
    rw [h2] at this
    linarith
  rcases le_or_lt (d : ℚ) TB with hA | hB
  · -- dollars_per_VAR is nonnegative: every draftable value is the round
    have hdpv : 0 ≤ dpv := dollarsPerVAR_nonneg sorted d TB hA
    have hu : ∀ s ∈ pre, 1 ≤ 1 + (s - repl) * dpv := fun s hs => by
      have := mul_nonneg (sub_nonneg.mpr (hge s hs)) hdpv
      linarith
    have hval : ∀ s ∈ pre,
        ((statDollarValue sorted d TB s : ℤ) : ℚ) =
          ((qround (1 + (s - repl) * dpv) : ℤ) : ℚ) := by
      intro s hs
      rw [statDollarValue, max_eq_right (one_le_qround (hu s hs))]
    have hmapEq :
        (pre.map fun s => ((statDollarValue sorted d TB s : ℤ) : ℚ)).sum =
          (pre.map fun s => ((qround (1 + (s - repl) * dpv) : ℤ) : ℚ)).sum :=
      congrArg List.sum (List.map_congr_left hval)
    rw [hmapEq, ← hUsum]
    have hdiff :
        (pre.map fun s => ((qround (1 + (s - repl) * dpv) : ℤ) : ℚ)).sum -
          (pre.map fun s => 1 + (s - repl) * dpv).sum =
          (pre.map fun s =>
            ((qround (1 + (s - repl) * dpv) : ℤ) : ℚ) - (1 + (s - repl) * dpv)).sum :=
      (sum_map_sub pre _ _).symm
    rw [hdiff]
    calc |(pre.map fun s =>
            ((qround (1 + (s - repl) * dpv) : ℤ) : ℚ) - (1 + (s - repl) * dpv)).sum|
        ≤ (pre.map fun s =>
            |((qround (1 + (s - repl) * dpv) : ℤ) : ℚ) - (1 + (s - repl) * dpv)|).sum :=
          abs_sum_map_le pre _
      _ ≤ pre.length * (1 / 2) :=
          sum_map_le_length_mul pre _ (1 / 2) fun s _ => qround_sub_le _
      _ ≤ (d : ℚ) := by
          rw [hprelen]
          have : (0 : ℚ) ≤ d := by positivity
          linarith
  · -- dollars_per_VAR is negative: every draftable value is the $1 floor
    have hdpvneg : dpv ≤ 0 := by
      rw [hdpvDef]
      unfold dollarsPerVAR
      rw [if_pos hpos]
      exact div_nonpos_of_nonpos_of_nonneg (by linarith) hpos.le
    have hu1 : ∀ s ∈ pre, 1 + (s - repl) * dpv ≤ 1 := fun s hs => by
      have : (s - repl) * dpv ≤ 0 :=
        mul_nonpos_iff.mpr (Or.inl ⟨sub_nonneg.mpr (hge s hs), hdpvneg⟩)
      linarith
    have hval : ∀ s ∈ pre,
        ((statDollarValue sorted d TB s : ℤ) : ℚ) = 1 := by
      intro s hs
      rw [statDollarValue, max_eq_left (qround_le_one (hu1 s hs))]
      norm_num
    have hmapEq :
        (pre.map fun s => ((statDollarValue sorted d TB s : ℤ) : ℚ)).sum =
          (pre.map fun _ => (1 : ℚ)).sum :=
      congrArg List.sum (List.map_congr_left hval)
    rw [hmapEq, sum_map_one, hprelen]
    rw [abs_of_nonneg (by linarith)]
    linarith

/-- Witness for C1: one team, roster 2, budget $10 on the descending pool
`[5, 3, 1]`: the conservation identity and the drift bound hold. -/
theorem budget_conservation_witness :
    (([(5 : ℚ), 3, 1].take (1 * 2)).map fun s =>
        max (s - replacementLevel [5, 3, 1] (1 * 2)) 0 *
          dollarsPerVAR [5, 3, 1] (1 * 2) ((1 * 10 : ℕ) : ℚ)).sum +
      ((1 * 2 : ℕ) : ℚ) * 1 = ((1 * 10 : ℕ) : ℚ) ∧
    |(([(5 : ℚ), 3, 1].take (1 * 2)).map fun s =>
        ((statDollarValue [5, 3, 1] (1 * 2) ((1 * 10 : ℕ) : ℚ) s : ℤ) : ℚ)).sum -
      ((1 * 10 : ℕ) : ℚ)| ≤ ((1 * 2 : ℕ) : ℚ) :=
  budget_conservation 1 2 10 [5, 3, 1] (by norm_num) (by norm_num) (by norm_num)
    (by simp [List.sorted_cons]; norm_num)
    (by norm_num)
    (by
      have h : replacementLevel [(5 : ℚ), 3, 1] (1 * 2) = 3 := by
        rw [replacementLevel]
        rfl
      rw [posVarSum, h]
      norm_num [List.take])

/-- C5: $1 floor.  A player's statistical dollar value is
`max(1, round(1 + VAR * dollars_per_VAR))`, which is at least $1 for every
player; and when the pool budget covers the $1 floors (total budget at least
the draftable count, as in every league whose budget is at least the roster
size), every player at or past the draftable cutoff of the descending-sorted
pool receives exactly $1. -/
theorem dollar_floor (sorted : List ℚ) (d : ℕ) (TB : ℚ)
    (hsort : List.Sorted (· ≥ ·) sorted) (hd1 : 1 ≤ d) (hdlen : d ≤ sorted.length)
    (hTB : (d : ℚ) ≤ TB) (i : ℕ) (hi : i < sorted.length) (hout : d ≤ i) :
    (∀ score : ℚ,
      statDollarValue sorted d TB score =
        max 1 (qround (1 + (score - replacementLevel sorted d) *
          dollarsPerVAR sorted d TB)) ∧
      1 ≤ statDollarValue sorted d TB score) ∧
    statDollarValue sorted d TB (sorted.get ⟨i, hi⟩) = 1 := by
  constructor
  · intro score
    exact ⟨rfl, le_max_left 1 _⟩
  · have hle : sorted.get ⟨i, hi⟩ ≤ replacementLevel sorted d :=
      get_le_repl_of_outside sorted d hsort hd1 hdlen i hi hout
    have hdpv : 0 ≤ dollarsPerVAR sorted d TB := dollarsPerVAR_nonneg sorted d TB hTB
    have hu : 1 + (sorted.get ⟨i, hi⟩ - replacementLevel sorted d) *
        dollarsPerVAR sorted d TB ≤ 1 := by
      have : (sorted.get ⟨i, hi⟩ - replacementLevel sorted d) *
          dollarsPerVAR sorted d TB ≤ 0 :=
        mul_nonpos_iff.mpr (Or.inr ⟨by linarith, hdpv⟩)
      linarith
    rw [statDollarValue, max_eq_left (qround_le_one hu)]

/-- Witness for C5: in the `[5, 3, 1]` pool with draftable count 2 and total
budget $10, the player at index 2 (outside the draftable pool) receives
exactly $1. -/
theorem dollar_floor_witness :
    (∀ score : ℚ,
      statDollarValue [5, 3, 1] 2 10 score =
        max 1 (qround (1 + (score - replacementLevel [5, 3, 1] 2) *
          dollarsPerVAR [5, 3, 1] 2 10)) ∧
      1 ≤ statDollarValue [5, 3, 1] 2 10 score) ∧
    statDollarValue [5, 3, 1] 2 10 ([(5 : ℚ), 3, 1].get ⟨2, by norm_num⟩) = 1 :=
  dollar_floor [5, 3, 1] 2 10 (by simp [List.sorted_cons]; norm_num) (by norm_num)
    (by norm_num) (by norm_num) 2 (by norm_num) (by norm_num)

/-! ## Theorems: fatal-error behaviour (C8) -/

theorem mem_allCats (c : Cat) : c ∈ allCats := by cases c <;> decide

theorem validConfigB_iff (cfg : LeagueConfig) :
    validConfigB cfg = true ↔
      ((∀ c, 0 ≤ cfg.weights c ∧ cfg.weights c ≤ 2) ∧ 0 < cfg.leagueTeams ∧
        0 < cfg.rosterSize ∧ 0 < cfg.budget ∧ 0 ≤ cfg.inflationRate) := by
  unfold validConfigB
  simp only [Bool.and_eq_true, List.all_eq_true, decide_eq_true_eq]
  constructor
  · rintro ⟨⟨⟨⟨hwall, ht⟩, hr⟩, hb⟩, hi⟩
    exact ⟨fun c => hwall c (mem_allCats c), ht, hr, hb, hi⟩
  · rintro ⟨hw, ht, hr, hb, hi⟩
    exact ⟨⟨⟨⟨fun c _ => hw c, ht⟩, hr⟩, hb⟩, hi⟩

/-- C8: Fatal-error atomicity.  The pipeline aborts with `InvalidConfig`
exactly when some category weight is outside `[0, 2]`, or `league_teams`,
`roster_size` or `budget` is non-positive, or `inflation_rate` is negative;
it aborts with `InsufficientData` exactly when the configuration is valid
but the eligible pool is empty after the games-played filter; and an aborted
run never also carries an output. -/
theorem pipeline_fatal_errors (cfg : LeagueConfig) (pool : List RawPlayer) :
    ((∃ m, runPipeline cfg pool = .error (.invalidConfig m)) ↔
      ¬ ((∀ c, 0 ≤ cfg.weights c ∧ cfg.weights c ≤ 2) ∧ 0 < cfg.leagueTeams ∧
          0 < cfg.rosterSize ∧ 0 < cfg.budget ∧ 0 ≤ cfg.inflationRate)) ∧
    ((∃ m, runPipeline cfg pool = .error (.insufficientData m)) ↔
      (((∀ c, 0 ≤ cfg.weights c ∧ cfg.weights c ≤ 2) ∧ 0 < cfg.leagueTeams ∧
          0 < cfg.rosterSize ∧ 0 < cfg.budget ∧ 0 ≤ cfg.inflationRate) ∧
        eligibleFilter cfg.minGames pool = [])) ∧
    (∀ e out, ¬ (runPipeline cfg pool = .error e ∧ runPipeline cfg pool = .ok out)) := by
  rw [← validConfigB_iff]
  unfold runPipeline
  by_cases hv : validConfigB cfg = true
  · by_cases he : (eligibleFilter cfg.minGames pool).isEmpty = true
    · have he' : eligibleFilter cfg.minGames pool = [] := List.isEmpty_iff.mp he
      simp [hv, he, he']
    · have he' : ¬ eligibleFilter cfg.minGames pool = [] :=
        fun h => he (by rw [h]; rfl)
      simp [hv, he, he']
  · simp [hv]

/-- Witness for C8: a valid 12-team configuration on an empty player pool
aborts with `InsufficientData`, and zeroing the budget aborts with
`InvalidConfig`. -/
theorem pipeline_fatal_errors_witness :
    (∃ m, runPipeline ⟨"2025", 20, fun _ => 1, 0, 12, 13, 200⟩ [] =
      .error (.insufficientData m)) ∧
    (∃ m, runPipeline ⟨"2025", 20, fun _ => 1, 0, 12, 13, 0⟩ [] =
      .error (.invalidConfig m)) :=
  ⟨(pipeline_fatal_errors ⟨"2025", 20, fun _ => 1, 0, 12, 13, 200⟩ []).2.1.mpr
      ⟨⟨fun _ => by norm_num, by norm_num, by norm_num, by norm_num, le_refl 0⟩, rfl⟩,
    (pipeline_fatal_errors ⟨"2025", 20, fun _ => 1, 0, 12, 13, 0⟩ []).1.mpr
      fun h => absurd h.2.2.2.1 (lt_irrefl 0)⟩

/-! ## Theorems: the embedded stable sort -/

theorem jsMerge_perm {α : Type} (r : α → α → Bool) :
    ∀ xs ys : List α, jsMerge r xs ys ~ xs ++ ys := by
  intro xs
  induction xs with
  | nil => intro ys; simp [jsMerge]
  | cons x xs ih =>
    intro ys
    induction ys with
    | nil => simp [jsMerge]
    | cons y ys ihy =>
      rw [jsMerge]
      split_ifs with h
      · exact (ih (y :: ys)).cons x
      · exact ((ihy.cons y).trans List.perm_middle.symm)

theorem jsSort_perm_aux {α : Type} (r : α → α → Bool) :
    ∀ (n : ℕ) (l : List α), l.length ≤ n → jsSort r l ~ l := by
  intro n
  induction n with
  | zero =>
    intro l hl
    have : l = [] := List.length_eq_zero.mp (by omega)
    subst this
    rw [jsSort]
    simp
  | succ n ih =>
    intro l hl
    rw [jsSort]
    split_ifs with h
    · exact List.Perm.refl l
    · have hlen : 2 ≤ l.length := by omega
      have ht : (l.take (l.length / 2)).length ≤ n := by
        simp only [List.length_take]
        omega
      have hd : (l.drop (l.length / 2)).length ≤ n := by
        simp only [List.length_drop]
        omega
      calc jsMerge r (jsSort r (l.take (l.length / 2))) (jsSort r (l.drop (l.length / 2)))
          ~ jsSort r (l.take (l.length / 2)) ++ jsSort r (l.drop (l.length / 2)) :=
            jsMerge_perm r _ _
        _ ~ l.take (l.length / 2) ++ l.drop (l.length / 2) :=
            (ih _ ht).append (ih _ hd)
        _ = l := List.take_append_drop _ l

theorem jsSort_perm {α : Type} (r : α → α → Bool) (l : List α) : jsSort r l ~ l :=
  jsSort_perm_aux r l.length l le_rfl

theorem jsMerge_pairwise {α : Type} {r : α → α → Bool} {R : α → α → Prop}
    (htrans : ∀ a b c, R a b → R b c → R a c)
    (htrue : ∀ a b, r a b = true → R a b)
    (hfalse : ∀ a b, r a b = false → R b a) :
    ∀ xs ys : List α, xs.Pairwise R → ys.Pairwise R →
      (jsMerge r xs ys).Pairwise R := by
  intro xs
  induction xs with
  | nil => intro ys _ hy; simpa [jsMerge] using hy
  | cons x xs ih =>
    intro ys hx
    induction ys with
    | nil =>
      intro _
      simpa [jsMerge] using hx
    | cons y ys ihy =>
      intro hy
      obtain ⟨hxh, hxt⟩ := List.pairwise_cons.mp hx
      obtain ⟨hyh, hyt⟩ := List.pairwise_cons.mp hy
      rw [jsMerge]
      split_ifs with h
      · refine List.pairwise_cons.mpr ⟨?_, ih (y :: ys) hxt hy⟩
        intro z hz
        have hz2 := (jsMerge_perm r xs (y :: ys)).mem_iff.mp hz
        rcases List.mem_append.mp hz2 with hz' | hz'
        · exact hxh z hz'
        · rcases List.mem_cons.mp hz' with rfl | hz''
          · exact htrue x z h
          · exact htrans x y z (htrue x y h) (hyh z hz'')
      · have hf : r x y = false := Bool.eq_false_iff.mpr h
        refine List.pairwise_cons.mpr ⟨?_, ihy hyt⟩
        intro z hz
        have hz2 := (jsMerge_perm r (x :: xs) ys).mem_iff.mp hz
        rcases List.mem_append.mp hz2 with hz' | hz'
        · rcases List.mem_cons.mp hz' with rfl | hz''
          · exact hfalse z y hf
          · exact htrans y x z (hfalse x y hf) (hxh z hz'')
        · exact hyh z hz'

theorem jsSort_pairwise_aux {α : Type} {r : α → α → Bool} {R : α → α → Prop}
    (htrans : ∀ a b c, R a b → R b c → R a c)
    (htrue : ∀ a b, r a b = true → R a b)
    (hfalse : ∀ a b, r a b = false → R b a) :
    ∀ (n : ℕ) (l : List α), l.length ≤ n → (jsSort r l).Pairwise R := by
  intro n
  induction n with
  | zero =>
    intro l hl
    have : l = [] := List.length_eq_zero.mp (by omega)
    subst this
    rw [jsSort]
    simp
  | succ n ih =>
    intro l hl
    rw [jsSort]
    split_ifs with h
    · match l, h with
      | [], _ => exact List.Pairwise.nil
      | [a], _ => exact List.pairwise_singleton R a
    · have ht : (l.take (l.length / 2)).length ≤ n := by
        simp only [List.length_take]
        omega
      have hd : (l.drop (l.length / 2)).length ≤ n := by
        simp only [List.length_drop]
        omega
      exact jsMerge_pairwise htrans htrue hfalse _ _ (ih _ ht) (ih _ hd)

theorem jsSort_pairwise {α : Type} {r : α → α → Bool} {R : α → α → Prop}
    (htrans : ∀ a b c, R a b → R b c → R a c)
    (htrue : ∀ a b, r a b = true → R a b)
    (hfalse : ∀ a b, r a b = false → R b a) (l : List α) :
    (jsSort r l).Pairwise R :=
  jsSort_pairwise_aux htrans htrue hfalse l.length l le_rfl

/-! ## Theorems: missing values sort last (C10) -/

/-- C10: Missing values sort last.  In the player table's sorted view, for
every sort key (modelled by its value accessor) and both directions, every
row whose key value is null/undefined comes after every row that has one
(pairwise: a row after a missing-valued row is itself missing-valued), rows
with numeric values are ordered by the selected direction, and the view is a
permutation of the rows it sorts. -/
theorem missing_values_sort_last {α : Type} (keyVal : α → Option ℚ)
    (asc : Bool) (l : List α) :
    (sortedView keyVal asc l).Pairwise (fun a b =>
      ((keyVal a).isNone = true → (keyVal b).isNone = true) ∧
      (∀ av bv, keyVal a = some av → keyVal b = some bv →
        (if asc = true then av ≤ bv else bv ≤ av))) ∧
    sortedView keyVal asc l ~ l := by
  constructor
  · apply jsSort_pairwise
    · rintro a b c ⟨h1ab, h2ab⟩ ⟨h1bc, h2bc⟩
      refine ⟨fun hna => h1bc (h1ab hna), ?_⟩
      intro av cv ha hc
      cases hkb : keyVal b with
      | none =>
        have h0 := h1bc (by simp [hkb])
        rw [hc] at h0
        simp at h0
      | some bv =>
        have hab := h2ab av bv ha hkb
        have hbc := h2bc bv cv hkb hc
        cases asc
        · simp only [Bool.false_eq_true, if_false] at hab hbc ⊢
          linarith
        · simp only [if_true] at hab hbc ⊢
          linarith
    · intro a b hr
      have hle : sortCompare keyVal asc a b ≤ 0 := of_decide_eq_true hr
      cases hka : keyVal a with
      | none =>
        exfalso
        simp [sortCompare, hka] at hle
        linarith
      | some av =>
        cases hkb : keyVal b with
        | none =>
          refine ⟨fun hi => by simp [hka] at hi, ?_⟩
          intro av' bv' _ hb
          cases hb
        | some bv =>
          have hc : sortCompare keyVal asc a b = if asc then av - bv else bv - av := by
            simp [sortCompare, hka, hkb]
          rw [hc] at hle
          refine ⟨fun hi => by simp [hka] at hi, ?_⟩
          intro av' bv' ha' hb'
          have hav : av' = av := (Option.some_inj.mp ha').symm
          have hbv : bv' = bv := (Option.some_inj.mp hb').symm
          subst hav
          subst hbv
          cases asc
          · simp only [Bool.false_eq_true, if_false] at hle ⊢
            linarith
          · simp only [if_true] at hle ⊢
            linarith
    · intro a b hr
      have hgt : ¬ sortCompare keyVal asc a b ≤ 0 := of_decide_eq_false hr
      cases hka : keyVal a with
      | none =>
        refine ⟨fun _ => by simp [hka], ?_⟩
        intro bv' av' _ ha'
        cases ha'
      | some av =>
        cases hkb : keyVal b with
        | none =>
          exfalso
          simp [sortCompare, hka, hkb] at hgt
        | some bv =>
          have hc : sortCompare keyVal asc a b = if asc then av - bv else bv - av := by
            simp [sortCompare, hka, hkb]
          rw [hc] at hgt
          refine ⟨fun hi => by simp [hkb] at hi, ?_⟩
          intro bv' av' hb' ha'
          have hav : av' = av := (Option.some_inj.mp ha').symm
          have hbv : bv' = bv := (Option.some_inj.mp hb').symm
          subst hav
          subst hbv
          cases asc
          · simp only [Bool.false_eq_true, if_false] at hgt ⊢
            linarith
          · simp only [if_true] at hgt ⊢
            linarith
  · exact jsSort_perm _ l

/-! ## Theorems: draft-state conservation (C9) -/

theorem filter_ne_cons_perm {α : Type} (nm : α → String) :
    ∀ (l : List α) (p : α), p ∈ l → (l.map nm).Nodup →
      p :: l.filter (fun q => decide (nm q ≠ nm p)) ~ l := by
  intro l
  induction l with
  | nil => intro p hp _; simp at hp
  | cons a t ih =>
    intro p hp hnd
    simp only [List.map_cons, List.nodup_cons] at hnd
    obtain ⟨hna, hndt⟩ := hnd
    rcases List.mem_cons.mp hp with rfl | hpt
    · rw [List.filter_cons, if_neg (by simp)]
      have hself : t.filter (fun q => decide (nm q ≠ nm p)) = t :=
        List.filter_eq_self.mpr fun q hq =>
          decide_eq_true fun he => hna (by rw [← he]; exact List.mem_map_of_mem nm hq)
      rw [hself]
    · have hne : nm a ≠ nm p :=
        fun he => hna (by rw [he]; exact List.mem_map_of_mem nm hpt)
      rw [List.filter_cons, if_pos (decide_eq_true hne)]
      exact (List.Perm.swap a p _).trans ((ih p hpt hndt).cons a)

theorem available_names_nodup (s : DraftState) (orig : List UIPlayer)
    (hperm : uiUnion s ~ orig) (hnd : (orig.map UIPlayer.name).Nodup) :
    (s.available.map UIPlayer.name).Nodup := by
  have hndu : ((uiUnion s).map UIPlayer.name).Nodup :=
    ((hperm.map UIPlayer.name).nodup_iff).mpr hnd
  refine List.Nodup.sublist ?_ hndu
  apply List.Sublist.map
  exact (List.sublist_append_left _ _).trans (List.sublist_append_left _ _)

theorem myTeam_names_nodup (s : DraftState) (orig : List UIPlayer)
    (hperm : uiUnion s ~ orig) (hnd : (orig.map UIPlayer.name).Nodup) :
    (s.myTeam.map fun q => q.player.name).Nodup := by
  have hndu : ((uiUnion s).map UIPlayer.name).Nodup :=
    ((hperm.map UIPlayer.name).nodup_iff).mpr hnd
  have hsub : (s.myTeam.map DraftedPlayer.player).map UIPlayer.name <+
      (uiUnion s).map UIPlayer.name := by
    apply List.Sublist.map
    exact (List.sublist_append_right _ _).trans (List.sublist_append_left _ _)
  have := List.Nodup.sublist hsub hndu
  rwa [List.map_map] at this

theorem others_names_nodup (s : DraftState) (orig : List UIPlayer)
    (hperm : uiUnion s ~ orig) (hnd : (orig.map UIPlayer.name).Nodup) :
    (s.othersDrafted.map fun q => q.player.name).Nodup := by
  have hndu : ((uiUnion s).map UIPlayer.name).Nodup :=
    ((hperm.map UIPlayer.name).nodup_iff).mpr hnd
  have hsub : (s.othersDrafted.map DraftedPlayer.player).map UIPlayer.name <+
      (uiUnion s).map UIPlayer.name := by
    apply List.Sublist.map
    exact List.sublist_append_right _ _
  have := List.Nodup.sublist hsub hndu
  rwa [List.map_map] at this

theorem draftStep_preserves (orig : List UIPlayer) (s s' : DraftState)
    (hstep : DraftStep s s') (hperm : uiUnion s ~ orig)
    (hnd : (orig.map UIPlayer.name).Nodup) : uiUnion s' ~ orig := by
  have hperm' : s.available ++ (s.myTeam.map DraftedPlayer.player ++
      s.othersDrafted.map DraftedPlayer.player) ~ orig := by
    simpa [uiUnion, List.append_assoc] using hperm
  cases hstep with
  | draftToMyTeam p price hp =>
    have hpcons := filter_ne_cons_perm UIPlayer.name s.available p hp
      (available_names_nodup s orig hperm hnd)
    refine List.Perm.trans ?_ hperm'
    simp only [uiUnion, List.map_append, List.map_cons, List.map_nil,
      List.append_assoc, List.singleton_append]
    exact (List.Perm.append_left _ List.perm_middle).trans
      (List.perm_middle.trans (hpcons.append_right _))
  | draftToOthers p hp =>
    have hpcons := filter_ne_cons_perm UIPlayer.name s.available p hp
      (available_names_nodup s orig hperm hnd)
    refine List.Perm.trans ?_ hperm'
    simp only [uiUnion, List.map_append, List.map_cons, List.map_nil,
      List.append_assoc, List.singleton_append]
    have hmid : s.myTeam.map DraftedPlayer.player ++
        (s.othersDrafted.map DraftedPlayer.player ++ [p]) ~
        p :: (s.myTeam.map DraftedPlayer.player ++
          s.othersDrafted.map DraftedPlayer.player) := by
      have h1 : s.myTeam.map DraftedPlayer.player ++
          (s.othersDrafted.map DraftedPlayer.player ++ [p]) =
          (s.myTeam.map DraftedPlayer.player ++
            s.othersDrafted.map DraftedPlayer.player) ++ [p] := by
        rw [List.append_assoc]
      rw [h1]
      exact List.perm_append_singleton p _
    exact (List.Perm.append_left _ hmid).trans
      (List.perm_middle.trans (hpcons.append_right _))
  | undraftFromMyTeam d hd =>
    have hdcons := filter_ne_cons_perm (fun q => q.player.name) s.myTeam d hd
      (myTeam_names_nodup s orig hperm hnd)
    have hmap := hdcons.map DraftedPlayer.player
    refine List.Perm.trans ?_ hperm'
    simp only [uiUnion, List.append_assoc]
    refine List.Perm.trans (((jsSort_perm byValueDesc _).append_right _)) ?_
    simp only [List.append_assoc, List.singleton_append]
    exact List.Perm.append_left _ (hmap.append_right _)
  | undraftFromOthers d hd =>
    have hdcons := filter_ne_cons_perm (fun q => q.player.name) s.othersDrafted d hd
      (others_names_nodup s orig hperm hnd)
    have hmap := hdcons.map DraftedPlayer.player
    refine List.Perm.trans ?_ hperm'
    simp only [uiUnion, List.append_assoc]
    refine List.Perm.trans (((jsSort_perm byValueDesc _).append_right _)) ?_
    simp only [List.append_assoc, List.singleton_append]
    refine List.Perm.append_left _ ?_
    exact List.perm_middle.symm.trans (List.Perm.append_left _ hmap)
  | clearAll =>
    refine List.Perm.trans ?_ hperm'
    simp only [uiUnion, List.map_nil, List.append_nil]
    exact (jsSort_perm byValueDesc _).trans (by simp [List.append_assoc])

/-- C9: Draft-state conservation.  Starting from a calculated player list
with pairwise-distinct names, every sequence of the UI draft operations
(draft to my team, draft to others, undraft from either, clear all)
preserves the invariant that the concatenation of the available list and the
player projections of the two drafted lists is a permutation of the original
list, and the names across the three lists stay pairwise distinct — each
player sits in exactly one of the three lists. -/
theorem draft_state_conservation (orig : List UIPlayer)
    (hnd : (orig.map UIPlayer.name).Nodup) (s : DraftState)
    (h : Relation.ReflTransGen DraftStep ⟨orig, [], []⟩ s) :
    uiUnion s ~ orig ∧ ((uiUnion s).map UIPlayer.name).Nodup := by
  have hperm : uiUnion s ~ orig := by
    induction h with
    | refl => simp [uiUnion]
    | tail hsteps hstep ih => exact draftStep_preserves orig _ _ hstep ih hnd
  exact ⟨hperm, ((hperm.map UIPlayer.name).nodup_iff).mpr hnd⟩

/-- Witness for C9: drafting player A (actual price $7) to my team from the
two-player list keeps the union a permutation of the original list with
distinct names. -/
theorem draft_state_conservation_witness :
    uiUnion ⟨[⟨"B", some 5⟩], [⟨⟨"A", some 10⟩, some 7⟩], []⟩ ~
      [⟨"A", some 10⟩, ⟨"B", some 5⟩] ∧
    ((uiUnion ⟨[⟨"B", some 5⟩], [⟨⟨"A", some 10⟩, some 7⟩], []⟩).map
      UIPlayer.name).Nodup :=
  draft_state_conservation [⟨"A", some 10⟩, ⟨"B", some 5⟩]
    (by simp) _
    (Relation.ReflTransGen.single
      (DraftStep.draftToMyTeam ⟨[⟨"A", some 10⟩, ⟨"B", some 5⟩], [], []⟩
        ⟨"A", some 10⟩ (some 7) (List.mem_cons_self _ _)))

end Bbal
